import Mathlib

/-!
# Verification of the `stargazers` account-trend aggregation

Shallow embedding of `src/stargazers/cli.py`.  The core is the
account-trend aggregation of `account_trend_command` (cli.py lines
463-519): star events, each a `(repo_name, star_date)` pair, are merged
into a daily table with a gap-free date axis, global new/cumulative
counts and per-repository new/cumulative columns.

Modelling conventions:
* calendar dates are day ordinals (`Nat`); `pd.to_datetime(...).dt.date`
  truncation has already happened when an event enters the model;
* a pandas frame column is a `List Nat` parallel to the date axis;
* repository identifiers are Lean `String`s, as in the source.
-/

set_option autoImplicit false

namespace Stargazers

/-- A star event after date truncation: `(repo_name, star_date)`
(cli.py line 455 builds exactly these pairs, line 465 truncates the
timestamp to a date). -/
abbrev Event := String × Nat

/-- The dates of all events (column `star_date` of the event frame). -/
def eventDates (events : List Event) : List Nat :=
  events.map Prod.snd

/-- Minimum event date, `daily_stars["star_date"].min()` (cli.py line 481).
Only used behind the non-emptiness guard of line 457/479; `0` on `[]` is
an arbitrary default. -/
def minDate : List Event → Nat
  | [] => 0
  | [e] => e.2
  | e :: e' :: rest => min e.2 (minDate (e' :: rest))

/-- Maximum event date, `daily_stars["star_date"].max()` (cli.py line 481). -/
def maxDate : List Event → Nat
  | [] => 0
  | [e] => e.2
  | e :: e' :: rest => max e.2 (maxDate (e' :: rest))

/-- The global date axis `pd.date_range(min, max, freq="D")`
(cli.py line 481): every calendar date from the minimum to the maximum
event date inclusive. -/
def axisDates (events : List Event) : List Nat :=
  List.range' (minDate events) (maxDate events + 1 - minDate events)

/-- Global daily star count on date `d`:
`df.groupby("star_date").size()` (cli.py line 475). -/
def countDate (events : List Event) (d : Nat) : Nat :=
  (events.filter (fun e => e.2 == d)).length

/-- Per-repository daily star count on date `d`:
`df.groupby(["repo_name", "star_date"]).size()` (cli.py line 468). -/
def countRepoDate (events : List Event) (repo : String) (d : Nat) : Nat :=
  (events.filter (fun e => e.1 == repo && e.2 == d)).length

/-- Number of events on dates `≤ d` (specification view of a cumulative
count; not a pandas step, used to characterise the series). -/
def countLe (events : List Event) (d : Nat) : Nat :=
  (events.filter (fun e => decide (e.2 ≤ d))).length

/-- Number of events of `repo` on dates `≤ d`. -/
def countRepoLe (events : List Event) (repo : String) (d : Nat) : Nat :=
  (events.filter (fun e => e.1 == repo && decide (e.2 ≤ d))).length

/-- Running sum with accumulator: `Series.cumsum()` (cli.py lines 472
and 491) applied to a column. -/
def cumListFrom (acc : Nat) : List Nat → List Nat
  | [] => []
  | n :: rest => (acc + n) :: cumListFrom (acc + n) rest

/-- The reindexed global daily new-star column
(`daily_stars["total_new_stars_on_day"]` after the reindex of cli.py
line 482): for each axis date the grouped count, `fill_value=0` making
dates without events explicit zeros. -/
def totalNewSeries (events : List Event) : List Nat :=
  (axisDates events).map (countDate events)

/-- `daily_stars["total_cumulative_stars_up_to_day"]` (cli.py line 491):
cumulative sum of the reindexed global new-star column. -/
def totalCumSeries (events : List Event) : List Nat :=
  cumListFrom 0 (totalNewSeries events)

/-- The sparse per-repository daily series `per_repo_daily` restricted to
one repository (cli.py lines 468-469): the sorted dates on which the
repository received at least one star, with the count.  The groupby
yields exactly the event dates of the repository, sorted; all of them lie
on the global axis, so this is the axis filtered to positive counts. -/
def sparseNew (events : List Event) (repo : String) : List (Nat × Nat) :=
  ((axisDates events).filter (fun d => decide (0 < countRepoDate events repo d))).map
    (fun d => (d, countRepoDate events repo d))

/-- `cumsum` over an (already sorted) sparse `(date, count)` series,
keeping the dates (cli.py line 472). -/
def cumPairsFrom (acc : Nat) : List (Nat × Nat) → List (Nat × Nat)
  | [] => []
  | (d, n) :: rest => (d, acc + n) :: cumPairsFrom (acc + n) rest

/-- `per_repo_daily["cumulative_stars_up_to_day"]` for one repository
(cli.py line 472): running sum of its sparse daily counts. -/
def sparseCum (events : List Event) (repo : String) : List (Nat × Nat) :=
  cumPairsFrom 0 (sparseNew events repo)

/-- The per-repository `<prefix>_new_stars` column (cli.py lines 500 and
510-512): initialised to `0` for every axis date, then overwritten with
the sparse count on the dates present in the repository's series. -/
def repoNewSeries (events : List Event) (repo : String) : List Nat :=
  (axisDates events).map (fun d => ((sparseNew events repo).lookup d).getD 0)

/-- The left-merge / `ffill()` / `fillna(0)` pass of cli.py lines
503-507: walk the axis carrying the last cumulative value seen in the
sparse series, starting from `0` (so axis dates before the repository's
first event get `0`, not a missing value). -/
def ffill (sparse : List (Nat × Nat)) (carry : Nat) : List Nat → List Nat
  | [] => []
  | d :: ds =>
    match sparse.lookup d with
    | some v => v :: ffill sparse v ds
    | none => carry :: ffill sparse carry ds

/-- The per-repository `<prefix>_cumulative_stars` column (cli.py lines
503-507 and 515-519). -/
def repoCumSeries (events : List Event) (repo : String) : List Nat :=
  ffill (sparseCum events repo) 0 (axisDates events)

/-- `not repo_data.empty` (cli.py line 497): the repository has at least
one star event. -/
def hasEvents (events : List Event) (repo : String) : Bool :=
  events.any (fun e => e.1 == repo)

/-- `repo.replace("/", "_")` on the character list of an identifier
(cli.py line 499); the pattern is a single character, so the substring
replace is a character map. -/
def encodeSlash : List Char → List Char :=
  List.map (fun c => if c = '/' then '_' else c)

/-- `col.replace("_", "/")` on a character list (cli.py line 285). -/
def decodeUnderscore : List Char → List Char :=
  List.map (fun c => if c = '_' then '/' else c)

/-- `repo_col_prefix = repo.replace("/", "_")` (cli.py line 499). -/
def colPrefix (repo : String) : String :=
  ⟨encodeSlash repo.data⟩

/-- The assembled trend table `final_df` (cli.py lines 494-519): the date
axis, the two global columns, and for every processed repository that has
events (in list order) its column prefix with its new and cumulative
columns. -/
structure TrendTable where
  dates : List Nat
  totalNew : List Nat
  totalCum : List Nat
  repoCols : List (String × List Nat × List Nat)
deriving DecidableEq

/-- The trend aggregation (cli.py lines 463-519) for a fixed event list
and processed-repository list. -/
def trendTable (events : List Event) (repos : List String) : TrendTable where
  dates := axisDates events
  totalNew := totalNewSeries events
  totalCum := totalCumSeries events
  repoCols := (repos.filter (hasEvents events)).map
    (fun r => (colPrefix r, repoNewSeries events r, repoCumSeries events r))

/-! ## The trend digest of `summarize_and_save` (cli.py lines 272-288)

`summarize_and_save` sorts the frame by `star_date` *descending*
(cli.py line 260) and then reads positions with `iloc`; a column of the
descending frame is the reverse of the ascending table column. -/

/-- The column name `f"{repo_col_prefix}_new_stars"` (cli.py line 500). -/
def newColName (p : String) : String := p ++ "_new_stars"

/-- `col[:-10].replace("_", "/")` (cli.py line 285): drop the 10-character
suffix `"_new_stars"` and restore `/` for `_`. -/
def summaryRepoName (col : String) : String :=
  ⟨decodeUnderscore (col.data.take (col.data.length - 10))⟩

/-- The digest printed for a trend export (cli.py lines 272-288). -/
structure TrendDigest where
  dateMin : Nat
  dateMax : Nat
  totalNewSum : Nat
  finalCumulative : Nat
  perRepoFinal : List (String × Nat)
deriving DecidableEq

/-- `summarize_and_save` on a trend table (cli.py lines 272-288).  The
frame is the table with every column reversed (sorted by date
descending, line 260); `iloc[-1]` is then `getLast`, `iloc[0]` is
`head`. -/
def summarizeTrend (t : TrendTable) : TrendDigest where
  dateMin := (t.dates.reverse).foldr min (t.dates.reverse.headD 0)
  dateMax := (t.dates.reverse).foldr max 0
  totalNewSum := (t.totalNew.reverse).sum
  finalCumulative := (t.totalCum.reverse).getLastD 0
  perRepoFinal := t.repoCols.map
    (fun c => (summaryRepoName (newColName c.1), (c.2.2.reverse).headD 0))

/-! ## Per-actor metadata retry loop of `fetch_user_metadata`
(cli.py lines 164-249) -/

/-- `max_retries = 3` (cli.py line 206). -/
def maxRetries : Nat := 3

/-- Outcome of one `GET /users/{username}` attempt, as dispatched by
`_handle_api_error` (cli.py lines 26-49) inside `fetch_user_metadata`:
a 200 with a record, or a 403 whose body indicates a rate limit (the
handler sleeps and signals a retry), or a transport error
(`httpx.RequestError`, which skips the actor).  A 404 or any other
non-200 status aborts the whole run via `SystemExit` and is outside this
per-actor model. -/
inductive UserResp where
  | ok (record : String)
  | rateLimited (reset : Option Nat) (now : Nat)
  | requestError
deriving DecidableEq

/-- The sleep performed by `_handle_api_error` on a rate-limited
response (cli.py lines 34-43): `max(1, reset - now)` when the
`X-RateLimit-Reset` header is present, a fixed 60 seconds otherwise.
(Python's possibly negative `reset - now` is clamped by `max(1, ...)`,
so truncated `Nat` subtraction agrees with it.) -/
def handlerWait : Option Nat → Nat → Nat
  | some reset, now => max 1 (reset - now)
  | none, _ => 60

/-- The bounded retry loop of cli.py lines 208-246 for one actor.
`fuel` is `max_retries - retries`; `attempt` numbers the API calls.
Returns the fetched record (if any) and the list of waits slept between
attempts: each rate-limited attempt sleeps the handler wait plus the
loop's own fixed extra 60 seconds (cli.py line 220). -/
def userAttempts (api : Nat → UserResp) : Nat → Nat → Option String × List Nat
  | _, 0 => (none, [])
  | attempt, fuel + 1 =>
    match api attempt with
    | .ok record => (some record, [])
    | .requestError => (none, [])
    | .rateLimited reset now =>
      let rest := userAttempts api (attempt + 1) fuel
      (rest.1, (handlerWait reset now + 60) :: rest.2)

/-- One input element of `fetch_user_metadata`: the login plus the
prefetched `user_details` when they already carry all required keys
(cli.py lines 179-199); such an actor is taken without a network call. -/
structure UserEvent where
  login : String
  prefetched : Option String
deriving DecidableEq

/-- `fetch_user_metadata` (cli.py lines 164-249): per actor, use the
sufficiently complete prefetched details if present, otherwise run the
bounded retry loop; actors whose loop yields nothing are skipped and the
remaining records are returned. -/
def fetchUserMetadata (api : String → Nat → UserResp) (users : List UserEvent) :
    List String :=
  users.filterMap (fun u =>
    match u.prefetched with
    | some record => some record
    | none => (userAttempts (api u.login) 0 maxRetries).1)

/-! ## Repository selection and output guard of `account_trend_command`
(cli.py lines 424-459) -/

/-- Insertion into a `≤`-sorted list of strings. -/
def insertSorted (x : String) : List String → List String
  | [] => [x]
  | y :: ys => if x ≤ y then x :: y :: ys else y :: insertSorted x ys

/-- Lexicographic insertion sort; models Python's `sorted` on strings. -/
def sortStrings (l : List String) : List String :=
  l.foldr insertSorted []

/-- `sorted(list(set(candidate_repos)))` followed by the exclusion filter
(cli.py lines 428-444): owned plus explicitly included repositories,
deduplicated and sorted, minus explicitly excluded ones. -/
def reposToProcess (owned included excluded : List String) : List String :=
  (sortStrings (owned ++ included).dedup).filter (fun r => !excluded.contains r)

/-- `account_trend_command` after the network fetches (cli.py lines
424-530): `fetch` gives each repository its (date-truncated) star event
dates.  `none` models the early `return` with a warning and no output
file (lines 446-448 and 457-459); otherwise the aggregated table is
built and written. -/
def accountTrend (owned included excluded : List String)
    (fetch : String → List Nat) : Option TrendTable :=
  let repos := reposToProcess owned included excluded
  if repos.isEmpty then none
  else
    let events := repos.flatMap (fun r => (fetch r).map (fun d => (r, d)))
    if events.isEmpty then none
    else some (trendTable events repos)

/-! ## Basic facts about the date extrema and the axis -/

theorem minDate_cons₂ (e e' : Event) (l : List Event) :
    minDate (e :: e' :: l) = min e.2 (minDate (e' :: l)) := rfl

theorem maxDate_cons₂ (e e' : Event) (l : List Event) :
    maxDate (e :: e' :: l) = max e.2 (maxDate (e' :: l)) := rfl

theorem minDate_le {events : List Event} {e : Event} (he : e ∈ events) :
    minDate events ≤ e.2 := by
  induction events with
  | nil => cases he
  | cons e' rest ih =>
    cases rest with
    | nil =>
      rcases List.mem_singleton.mp he with rfl
      exact le_refl _
    | cons e'' rest' =>
      rcases List.mem_cons.mp he with rfl | h'
      · rw [minDate_cons₂]; exact min_le_left _ _
      · rw [minDate_cons₂]; exact le_trans (min_le_right _ _) (ih h')

theorem le_maxDate {events : List Event} {e : Event} (he : e ∈ events) :
    e.2 ≤ maxDate events := by
  induction events with
  | nil => cases he
  | cons e' rest ih =>
    cases rest with
    | nil =>
      rcases List.mem_singleton.mp he with rfl
      exact le_refl _
    | cons e'' rest' =>
      rcases List.mem_cons.mp he with rfl | h'
      · rw [maxDate_cons₂]; exact le_max_left _ _
      · rw [maxDate_cons₂]; exact le_trans (ih h') (le_max_right _ _)

theorem minDate_le_maxDate {events : List Event} (hne : events ≠ []) :
    minDate events ≤ maxDate events := by
  cases events with
  | nil => exact absurd rfl hne
  | cons e rest =>
    exact le_trans (minDate_le (List.mem_cons_self e rest))
      (le_maxDate (List.mem_cons_self e rest))

theorem mem_axisDates {events : List Event} (hne : events ≠ []) (d : Nat) :
    d ∈ axisDates events ↔ minDate events ≤ d ∧ d ≤ maxDate events := by
  have hmm := minDate_le_maxDate hne
  simp only [axisDates, List.mem_range'_1]
  omega

theorem axisDates_nodup (events : List Event) : (axisDates events).Nodup :=
  List.nodup_range' _ _

theorem event_date_mem_axis {events : List Event} {e : Event} (he : e ∈ events) :
    e.2 ∈ axisDates events := by
  have hne : events ≠ [] := by rintro rfl; cases he
  exact (mem_axisDates hne e.2).mpr ⟨minDate_le he, le_maxDate he⟩

/-! ## Claim theorems: concrete scenario and date axis -/

/-- **C1** For the event multiset {(repoA, 2023-01-01), (repoA, 2023-01-01),
(repoB, 2023-01-02)} (dates as day ordinals 0 and 1), the trend aggregation
produces exactly two axis rows with global counts (0: new 2, cum 2),
(1: new 1, cum 3), repoA columns ([2,0], [2,2]) and repoB columns
([0,1], [0,1]). -/
theorem trend_scenario_two_repos :
    trendTable [("repoA", 0), ("repoA", 0), ("repoB", 1)] ["repoA", "repoB"] =
      { dates := [0, 1], totalNew := [2, 1], totalCum := [2, 3],
        repoCols := [("repoA", [2, 0], [2, 2]), ("repoB", [0, 1], [0, 1])] } := by
  decide

/-- **C4** For every non-empty event set the table has exactly one row per
calendar date from the global minimum to the global maximum event date
inclusive (membership characterisation, no duplicates, exact length), the
global new-count column is the per-date event count along that axis, and
the count is `0` exactly on dates where no event occurred. -/
theorem trend_axis_rows (events : List Event) (repos : List String) (d : Nat)
    (hne : events ≠ []) :
    ((d ∈ (trendTable events repos).dates ↔
        minDate events ≤ d ∧ d ≤ maxDate events)
      ∧ (trendTable events repos).dates.Nodup
      ∧ (trendTable events repos).dates.length = maxDate events + 1 - minDate events)
    ∧ (trendTable events repos).totalNew =
        (trendTable events repos).dates.map (countDate events)
    ∧ (countDate events d = 0 ↔ ∀ e ∈ events, e.2 ≠ d) := by
  refine ⟨⟨mem_axisDates hne d, axisDates_nodup events, ?_⟩, rfl, ?_⟩
  · simp [trendTable, axisDates]
  · simp [countDate, List.length_eq_zero, List.filter_eq_nil_iff]

/-- Witness for `trend_axis_rows`: events on days 1 and 5 only; day 3 is on
the axis even though it has no events, and its global new-count is zero. -/
theorem trend_axis_rows_witness :
    (3 ∈ (trendTable [("o/r", 1), ("o/r", 5)] []).dates ↔
        minDate [("o/r", 1), ("o/r", 5)] ≤ 3 ∧ 3 ≤ maxDate [("o/r", 1), ("o/r", 5)])
      ∧ (countDate [("o/r", 1), ("o/r", 5)] 3 = 0 ↔
        ∀ e ∈ ([("o/r", 1), ("o/r", 5)] : List Event), e.2 ≠ 3) := by
  have h := trend_axis_rows [("o/r", 1), ("o/r", 5)] [] 3 (by decide)
  exact ⟨h.1.1, h.2.2⟩

/-! ## Claim theorems: column naming and eventless repositories -/

theorem decode_encode_char (c : Char) :
    (if (if c = '/' then '_' else c) = '_' then '/' else (if c = '/' then '_' else c))
      = c ↔ c ≠ '_' := by
  by_cases hc : c = '/'
  · subst hc; simp
  · by_cases hu : c = '_'
    · subst hu; simp [hc]
    · simp [hc, hu]

theorem decode_encode_eq_iff (l : List Char) :
    decodeUnderscore (encodeSlash l) = l ↔ '_' ∉ l := by
  induction l with
  | nil => simp [encodeSlash, decodeUnderscore]
  | cons c l ih =>
    show ((if (if c = '/' then '_' else c) = '_' then '/'
          else (if c = '/' then '_' else c)) :: decodeUnderscore (encodeSlash l))
        = c :: l ↔ '_' ∉ c :: l
    rw [List.cons.injEq]
    have hhead := decode_encode_char c
    constructor
    · rintro ⟨h1, h2⟩ hmem
      rcases List.mem_cons.mp hmem with h | hm
      · exact (hhead.mp h1) h.symm
      · exact ih.mp h2 hm
    · intro hmem
      refine ⟨hhead.mpr ?_, ih.mpr ?_⟩
      · intro hc; exact hmem (hc ▸ List.mem_cons_self _ _)
      · intro hm; exact hmem (List.mem_cons_of_mem _ hm)

/-- **C10** The per-repository summary rebuilds the displayed name from the
column prefix by replacing every `_` with `/`; composed with the `/` → `_`
column-name encoding this is the identity exactly for repository
identifiers containing no underscore, and differs from the identifier
whenever it contains one. -/
theorem summary_name_round_trip (repo : String) :
    summaryRepoName (newColName (colPrefix repo)) = repo ↔ '_' ∉ repo.data := by
  have hdata : (newColName (colPrefix repo)).data
      = encodeSlash repo.data ++ "_new_stars".data := by
    simp [newColName, colPrefix]
  have htake : ((newColName (colPrefix repo)).data.take
      ((newColName (colPrefix repo)).data.length - 10)) = encodeSlash repo.data := by
    rw [hdata, List.length_append]
    have h10 : ("_new_stars".data).length = 10 := rfl
    rw [h10, Nat.add_sub_cancel]
    exact List.take_left' rfl
  rw [summaryRepoName, htake, String.ext_iff]
  exact decode_encode_eq_iff repo.data

/-- **C9** A repository present in the processed list whose event list is
empty contributes no columns at all to the table: the table built with it
in the list is identical to the table built without it. -/
theorem eventless_repo_no_columns (events : List Event) (r : String)
    (rs₁ rs₂ : List String) (h : ∀ e ∈ events, e.1 ≠ r) :
    trendTable events (rs₁ ++ r :: rs₂) = trendTable events (rs₁ ++ rs₂) := by
  have hfalse : hasEvents events r = false := by
    simp only [hasEvents, List.any_eq_false]
    intro e he
    simp [h e he]
  simp [trendTable, List.filter_append, List.filter_cons, hfalse]

/-- Witness for `eventless_repo_no_columns`: `b/y` has no events, so
processing `[a/x, b/y]` yields the same table as processing `[a/x]`. -/
theorem eventless_repo_no_columns_witness :
    trendTable [("a/x", 0)] ["a/x", "b/y"] = trendTable [("a/x", 0)] ["a/x"] :=
  eventless_repo_no_columns [("a/x", 0)] "b/y" ["a/x"] [] (by decide)

/-! ## Claim theorems: empty-input guards of the account-trend command -/

/-- **C8** If the repository set is empty after include/exclude filtering,
or the total event set across processed repositories is empty, the
account-trend command produces no output (modelled as `none`: the early
`return` with a warning, before any file write). -/
theorem account_trend_empty_guards (owned included excluded : List String)
    (fetch : String → List Nat) :
    (reposToProcess owned included excluded = [] →
      accountTrend owned included excluded fetch = none)
    ∧ ((∀ r ∈ reposToProcess owned included excluded, fetch r = []) →
      accountTrend owned included excluded fetch = none) := by
  constructor
  · intro h
    simp [accountTrend, h]
  · intro h
    by_cases hr : reposToProcess owned included excluded = []
    · simp [accountTrend, hr]
    · have hev : (reposToProcess owned included excluded).flatMap
          (fun r => (fetch r).map (fun d => (r, d))) = [] := by
        rw [List.flatMap_eq_nil_iff]
        intro r hrm
        rw [h r hrm]
        rfl
      simp [accountTrend, hev]

/-- Witness for `account_trend_empty_guards`: no candidate repositories at
all, and a single repository whose fetch returns no events. -/
theorem account_trend_empty_guards_witness :
    accountTrend [] [] [] (fun _ => []) = none
    ∧ accountTrend ["a/b"] [] [] (fun _ => []) = none :=
  ⟨(account_trend_empty_guards [] [] [] (fun _ => [])).1 (by decide),
   (account_trend_empty_guards ["a/b"] [] [] (fun _ => [])).2 (by decide)⟩

/-! ## Claim theorems: per-actor metadata retries and the digest -/

theorem userAttempts_rateLimited (api : Nat → UserResp) (reset : Option Nat)
    (now : Nat) (hb : ∀ n, api n = .rateLimited reset now) :
    ∀ fuel attempt, userAttempts api attempt fuel
      = (none, List.replicate fuel (handlerWait reset now + 60)) := by
  intro fuel
  induction fuel with
  | zero => intro attempt; rfl
  | succ n ih =>
    intro attempt
    simp [userAttempts, hb, ih, List.replicate_succ]

/-- **C7** (amended) Per-actor metadata lookups hitting a rate limit are
retried boundedly (exactly `max_retries = 3` attempts) with a *constant*
wait between attempts — the rate-limit handler's wait (reset-based or the
60-second fallback) plus the loop's fixed additional 60 seconds, not an
exponential doubling — after which the actor is skipped; with three
actors of which one is permanently rate-limited, exactly the other two
records are produced and the run completes. -/
theorem metadata_bounded_retry (api : String → Nat → UserResp)
    (a b c : UserEvent) (ra rc : String) (reset : Option Nat) (now : Nat)
    (hpa : a.prefetched = none) (hpb : b.prefetched = none)
    (hpc : c.prefetched = none)
    (hb : ∀ n, api b.login n = .rateLimited reset now)
    (ha : api a.login 0 = .ok ra) (hc : api c.login 0 = .ok rc) :
    fetchUserMetadata api [a, b, c] = [ra, rc]
    ∧ (userAttempts (api b.login) 0 maxRetries).2 =
        List.replicate maxRetries (handlerWait reset now + 60) := by
  refine ⟨?_, by rw [userAttempts_rateLimited _ _ _ hb maxRetries 0]⟩
  simp [fetchUserMetadata, hpa, hpb, hpc, maxRetries, userAttempts, ha, hb, hc,
    List.filterMap_cons]

/-- Witness for `metadata_bounded_retry`: actor `ub` of three is
permanently rate-limited; exactly the records of `ua` and `uc` survive,
after three constant 120-second waits for `ub`. -/
theorem metadata_bounded_retry_witness :
    fetchUserMetadata
        (fun u _ => if u = "ub" then .rateLimited none 0 else .ok u)
        [⟨"ua", none⟩, ⟨"ub", none⟩, ⟨"uc", none⟩] = ["ua", "uc"]
    ∧ (userAttempts
        ((fun u (_ : Nat) =>
          if u = "ub" then UserResp.rateLimited none 0 else UserResp.ok u)
          (UserEvent.mk "ub" none).login) 0 maxRetries).2 =
        List.replicate maxRetries (handlerWait none 0 + 60) :=
  metadata_bounded_retry
    (fun u _ => if u = "ub" then .rateLimited none 0 else .ok u)
    ⟨"ua", none⟩ ⟨"ub", none⟩ ⟨"uc", none⟩ "ua" "uc" none 0
    rfl rfl rfl (fun _ => by simp) (by decide) (by decide)

/-- Counterexample to C7 as stated: for a permanently rate-limited actor
(no reset header) the waits between the bounded retries are a constant
120 seconds — the handler's fixed 60-second fallback plus the loop's
fixed extra 60 seconds (cli.py lines 34-43 and 219-221) — not an
exponential backoff doubling from a 60-second base (which would give
60, 120, 240). -/
theorem metadata_backoff_not_doubling :
    (userAttempts (fun _ => UserResp.rateLimited none 0) 0 maxRetries).2
      = [120, 120, 120]
    ∧ (userAttempts (fun _ => UserResp.rateLimited none 0) 0 maxRetries).2
      ≠ [60, 120, 240] := by
  decide

/-- **C6** fails on the code: `summarize_and_save` sorts the frame by date
*descending* (cli.py line 260) and then prints "Final cumulative stars"
from `iloc[-1]` (line 277), which is the cumulative on the EARLIEST date
of the range.  With one star on day 0 and one on day 1 the digest shows
1, while the global cumulative on the most recent date is 2.  The
per-repository lines (`iloc[0]`, line 287) do show each repository's
cumulative on the most recent date, as this input also evidences. -/
theorem digest_final_cumulative_divergence :
    (summarizeTrend (trendTable [("a/r", 0), ("b/s", 1)] ["a/r", "b/s"])).finalCumulative
      = 1
    ∧ (trendTable [("a/r", 0), ("b/s", 1)] ["a/r", "b/s"]).totalCum.getLastD 0 = 2
    ∧ (summarizeTrend (trendTable [("a/r", 0), ("b/s", 1)] ["a/r", "b/s"])).perRepoFinal
      = [("a/r", 1), ("b/s", 1)] := by
  decide

/-! ## Prefix-sum, counting and forward-fill machinery -/

theorem cumListFrom_getD (l : List Nat) :
    ∀ (b i : Nat), i < l.length →
      (cumListFrom b l).getD i 0 = b + (l.take (i + 1)).sum := by
  induction l with
  | nil => intro b i hi; cases hi
  | cons n rest ih =>
    intro b i hi
    cases i with
    | zero => simp [cumListFrom]
    | succ j =>
      have hj : j < rest.length := by simpa using hi
      have hrec := ih (b + n) j hj
      simp only [cumListFrom, List.getD_cons_succ, List.take_succ_cons, List.sum_cons]
      rw [hrec]
      omega

theorem sum_take_mono (l : List Nat) {m k : Nat} (h : m ≤ k) :
    (l.take m).sum ≤ (l.take k).sum := by
  have hk : k = m + (k - m) := by omega
  rw [hk, List.take_add, List.sum_append]
  exact Nat.le_add_right _ _

theorem take_range' (a n m : Nat) (h : m ≤ n) :
    (List.range' a n).take m = List.range' a m := by
  have hsplit : List.range' a m ++ List.range' (a + m) (n - m) = List.range' a n := by
    rw [List.range'_append_1]
    congr 1
    omega
  calc (List.range' a n).take m
      = (List.range' a m ++ List.range' (a + m) (n - m)).take m := by rw [hsplit]
    _ = List.range' a m := List.take_left' (by simp)

theorem sum_map_zero {α : Type} (L : List α) (f : α → Nat)
    (hf : ∀ x ∈ L, f x = 0) :
    (L.map f).sum = 0 := by
  induction L with
  | nil => rfl
  | cons x L ih =>
    rw [List.map_cons, List.sum_cons, hf x (List.mem_cons_self _ _),
      ih (fun y hy => hf y (List.mem_cons_of_mem _ hy))]

theorem sum_map_eq_count (y : Nat) (L : List Nat) :
    (L.map (fun d => if y == d then 1 else 0)).sum = L.count y := by
  induction L with
  | nil => rfl
  | cons d L ih =>
    rw [List.map_cons, List.sum_cons, ih, List.count_cons, Bool.beq_comm]
    exact Nat.add_comm _ _

theorem sum_map_indicator {α : Type} [BEq α] [LawfulBEq α] (L : List α) (x : α)
    (k : Nat) (hnd : L.Nodup) (hx : x ∈ L) :
    (L.map (fun r => if x == r then k else 0)).sum = k := by
  induction L with
  | nil => cases hx
  | cons r rs ih =>
    rcases List.mem_cons.mp hx with rfl | hm
    · rw [List.map_cons, List.sum_cons]
      have h2 : (rs.map (fun r => if x == r then k else 0)).sum = 0 := by
        apply sum_map_zero
        intro y hy
        have hne : x ≠ y := fun h => (List.nodup_cons.mp hnd).1 (h ▸ hy)
        simp [hne]
      simp [h2]
    · have hxr : (x == r) = false :=
        beq_eq_false_iff_ne.mpr (fun h => (List.nodup_cons.mp hnd).1 (h ▸ hm))
      rw [List.map_cons, List.sum_cons, hxr]
      simpa using ih (List.nodup_cons.mp hnd).2 hm

theorem lookup_map_pair (g : Nat → Nat) :
    ∀ (ds : List Nat), ds.Nodup → ∀ {d : Nat}, d ∈ ds →
      (ds.map (fun x => (x, g x))).lookup d = some (g d) := by
  intro ds
  induction ds with
  | nil => intro _ d hd; cases hd
  | cons x ds ih =>
    intro hnd d hd
    rcases List.mem_cons.mp hd with rfl | hm
    · simp
    · have hdx : (d == x) = false :=
        beq_eq_false_iff_ne.mpr (fun h => (List.nodup_cons.mp hnd).1 (h ▸ hm))
      rw [List.map_cons, List.lookup_cons, hdx]
      exact ih (List.nodup_cons.mp hnd).2 hm

theorem lookup_eq_none_of_not_mem_keys (s : List (Nat × Nat)) (k : Nat)
    (h : ∀ p ∈ s, p.1 ≠ k) : s.lookup k = none := by
  rw [List.lookup_eq_none_iff]
  intro p hp
  simpa using (h p hp).symm

theorem cumPairsFrom_keys (s : List (Nat × Nat)) :
    ∀ b : Nat, (cumPairsFrom b s).map Prod.fst = s.map Prod.fst := by
  induction s with
  | nil => intro b; rfl
  | cons p rest ih =>
    intro b
    cases p with
    | mk d n => simp [cumPairsFrom, ih]

theorem ffill_cons_not_mem (k v : Nat) (s : List (Nat × Nat)) :
    ∀ (ds : List Nat) (carry : Nat), (∀ d ∈ ds, d ≠ k) →
      ffill ((k, v) :: s) carry ds = ffill s carry ds := by
  intro ds
  induction ds with
  | nil => intro carry _; rfl
  | cons d ds ih =>
    intro carry h
    have hdk : (d == k) = false :=
      beq_eq_false_iff_ne.mpr (h d (List.mem_cons_self _ _))
    have htail : ∀ d' ∈ ds, d' ≠ k := fun d' hd' => h d' (List.mem_cons_of_mem _ hd')
    simp only [ffill, List.lookup_cons, hdk]
    cases hl : s.lookup d with
    | some v' => simp [hl, ih _ htail]
    | none => simp [hl, ih _ htail]

/-- Walking the axis `range' a n` with the forward-fill pass over the
cumulative pairs built from the positive-count dates yields, at every
axis date `d`, the base value plus the sum of the daily counts over
`[a, d]`. -/
theorem ffill_range' (c : Nat → Nat) :
    ∀ (n a b : Nat),
      ffill (cumPairsFrom b (((List.range' a n).filter
          (fun d => decide (0 < c d))).map (fun d => (d, c d)))) b (List.range' a n)
        = (List.range' a n).map
            (fun d => b + ((List.range' a (d + 1 - a)).map c).sum) := by
  intro n
  induction n with
  | zero => intro a b; rfl
  | succ m ih =>
    intro a b
    rw [List.range'_succ]
    by_cases hca : 0 < c a
    · have hfil : (a :: List.range' (a + 1) m).filter (fun d => decide (0 < c d))
          = a :: (List.range' (a + 1) m).filter (fun d => decide (0 < c d)) := by
        simp [List.filter_cons, hca]
      rw [hfil, List.map_cons]
      simp only [cumPairsFrom]
      simp only [ffill, List.lookup_cons_self]
      have hne : ∀ d ∈ List.range' (a + 1) m, d ≠ a := by
        intro d hd
        have := (List.mem_range'_1.mp hd).1
        omega
      rw [ffill_cons_not_mem a (b + c a) _ _ _ hne, ih (a + 1) (b + c a),
        List.map_cons]
      congr 1
      · rw [show a + 1 - a = 1 from by omega]
        simp [List.range'_succ]
      · apply List.map_congr_left
        intro d hd
        have hda : a + 1 ≤ d := (List.mem_range'_1.mp hd).1
        rw [show d + 1 - (a + 1) = d - a from by omega]
        rw [show List.range' a (d + 1 - a) = a :: List.range' (a + 1) (d - a) from by
          rw [show d + 1 - a = (d - a) + 1 from by omega, List.range'_succ]]
        rw [List.map_cons, List.sum_cons]
        omega
    · have hc0 : c a = 0 := by omega
      have hfil : (a :: List.range' (a + 1) m).filter (fun d => decide (0 < c d))
          = (List.range' (a + 1) m).filter (fun d => decide (0 < c d)) := by
        simp [List.filter_cons, hca]
      rw [hfil]
      have hlook : (cumPairsFrom b (((List.range' (a + 1) m).filter
          (fun d => decide (0 < c d))).map (fun d => (d, c d)))).lookup a = none := by
        apply lookup_eq_none_of_not_mem_keys
        intro p hp
        have h1 : p.1 ∈ (((List.range' (a + 1) m).filter
            (fun d => decide (0 < c d))).map (fun d => (d, c d))).map Prod.fst := by
          rw [← cumPairsFrom_keys _ b]
          exact List.mem_map_of_mem _ hp
        rcases List.mem_map.mp h1 with ⟨q, hq, hq1⟩
        rcases List.mem_map.mp hq with ⟨d0, hd0, rfl⟩
        have hge := (List.mem_range'_1.mp (List.mem_filter.mp hd0).1).1
        have hd0p : d0 = p.1 := hq1
        omega
      simp only [ffill, hlook]
      rw [ih (a + 1) b, List.map_cons]
      congr 1
      · rw [show a + 1 - a = 1 from by omega]
        simp [List.range'_succ, hc0]
      · apply List.map_congr_left
        intro d hd
        have hda : a + 1 ≤ d := (List.mem_range'_1.mp hd).1
        rw [show d + 1 - (a + 1) = d - a from by omega]
        rw [show List.range' a (d + 1 - a) = a :: List.range' (a + 1) (d - a) from by
          rw [show d + 1 - a = (d - a) + 1 from by omega, List.range'_succ]]
        rw [List.map_cons, List.sum_cons, hc0]
        omega

/-- Summing, along a date range, the per-date count of the events selected
by `p` gives the count of selected events with a date below the end of the
range, provided every selected event's date is at least the range start. -/
theorem sum_range'_filter_length (p : Event → Bool) (l : List Event) :
    ∀ (a len : Nat), (∀ e ∈ l, p e = true → a ≤ e.2) →
    ((List.range' a len).map
        (fun d => (l.filter (fun e => p e && e.2 == d)).length)).sum
      = (l.filter (fun e => p e && decide (e.2 < a + len))).length := by
  induction l with
  | nil =>
    intro a len _
    have hz : ((List.range' a len).map
        (fun d => (List.filter (fun e => p e && e.2 == d) []).length)).sum = 0 :=
      sum_map_zero _ _ (fun x _ => rfl)
    rw [hz]
    simp
  | cons e evs ih =>
    intro a len h
    have hsplit : ∀ d : Nat,
        ((e :: evs).filter (fun e' => p e' && e'.2 == d)).length
          = (evs.filter (fun e' => p e' && e'.2 == d)).length
            + (if p e && e.2 == d then 1 else 0) := by
      intro d
      rw [← List.countP_eq_length_filter, ← List.countP_eq_length_filter,
        List.countP_cons]
    have hR : ((e :: evs).filter (fun e' => p e' && decide (e'.2 < a + len))).length
        = (evs.filter (fun e' => p e' && decide (e'.2 < a + len))).length
          + (if p e && decide (e.2 < a + len) then 1 else 0) := by
      rw [← List.countP_eq_length_filter, ← List.countP_eq_length_filter,
        List.countP_cons]
    rw [show (List.range' a len).map
          (fun d => ((e :: evs).filter (fun e' => p e' && e'.2 == d)).length)
        = (List.range' a len).map
          (fun d => (evs.filter (fun e' => p e' && e'.2 == d)).length
            + (if p e && e.2 == d then 1 else 0)) from
      List.map_congr_left (fun d _ => hsplit d)]
    rw [List.sum_map_add, hR,
      ih a len (fun e' he' hp' => h e' (List.mem_cons_of_mem _ he') hp')]
    congr 1
    by_cases hp : p e = true
    · simp only [hp, Bool.true_and]
      rw [sum_map_eq_count e.2 (List.range' a len)]
      have ha : a ≤ e.2 := h e (List.mem_cons_self _ _) hp
      by_cases hlt : e.2 < a + len
      · rw [List.count_eq_one_of_mem (List.nodup_range' a len)
          (List.mem_range'_1.mpr ⟨ha, hlt⟩)]
        simp [hlt]
      · rw [List.count_eq_zero_of_not_mem
          (fun hmem => hlt (List.mem_range'_1.mp hmem).2)]
        simp [hlt]
    · have hpf : p e = false := by simpa using hp
      simp only [hpf, Bool.false_and]
      rw [sum_map_zero _ _ (fun x _ => by simp)]
      simp

/-! ## Pointwise characterisation of the table columns -/

theorem axisDates_getD (events : List Event) (i : Nat)
    (hi : i < (axisDates events).length) :
    (axisDates events).getD i 0 = minDate events + i := by
  rw [List.getD_eq_getElem?_getD, List.getElem?_eq_getElem hi]
  simp [axisDates]

theorem totalNewSeries_getD (events : List Event) (i : Nat)
    (hi : i < (axisDates events).length) :
    (totalNewSeries events).getD i 0 = countDate events (minDate events + i) := by
  rw [totalNewSeries, List.getD_eq_getElem?_getD, List.getElem?_map,
    List.getElem?_eq_getElem hi]
  simp [axisDates]

theorem totalCumSeries_getD (events : List Event) (i : Nat)
    (hi : i < (axisDates events).length) :
    (totalCumSeries events).getD i 0 = ((totalNewSeries events).take (i + 1)).sum := by
  have hlen : i < (totalNewSeries events).length := by
    simpa [totalNewSeries] using hi
  rw [totalCumSeries]
  simpa using cumListFrom_getD (totalNewSeries events) 0 i hlen

theorem repoNewSeries_eq_map (events : List Event) (repo : String) :
    repoNewSeries events repo
      = (axisDates events).map (countRepoDate events repo) := by
  apply List.map_congr_left
  intro d hd
  by_cases hpos : 0 < countRepoDate events repo d
  · have hmem : d ∈ (axisDates events).filter
        (fun d' => decide (0 < countRepoDate events repo d')) :=
      List.mem_filter.mpr ⟨hd, by simpa using hpos⟩
    rw [sparseNew, lookup_map_pair (countRepoDate events repo) _
      ((axisDates_nodup events).filter _) hmem]
    rfl
  · have hnone : (sparseNew events repo).lookup d = none := by
      apply lookup_eq_none_of_not_mem_keys
      intro q hq
      rcases List.mem_map.mp hq with ⟨d0, hd0, rfl⟩
      intro hEq
      have hp0 : 0 < countRepoDate events repo d0 := by
        simpa using (List.mem_filter.mp hd0).2
      exact hpos (hEq ▸ hp0)
    rw [hnone]
    simp only [Option.getD_none]
    omega

theorem repoNewSeries_getD (events : List Event) (repo : String) (i : Nat)
    (hi : i < (axisDates events).length) :
    (repoNewSeries events repo).getD i 0
      = countRepoDate events repo (minDate events + i) := by
  rw [repoNewSeries_eq_map, List.getD_eq_getElem?_getD, List.getElem?_map,
    List.getElem?_eq_getElem hi]
  simp [axisDates]

theorem repoCumSeries_getD (events : List Event) (repo : String) (i : Nat)
    (hi : i < (axisDates events).length) :
    (repoCumSeries events repo).getD i 0
      = ((List.range' (minDate events) (i + 1)).map
          (countRepoDate events repo)).sum := by
  have hi' : i < (List.range' (minDate events)
      (maxDate events + 1 - minDate events)).length := by
    simpa [axisDates] using hi
  have h := ffill_range' (countRepoDate events repo)
      (maxDate events + 1 - minDate events) (minDate events) 0
  rw [repoCumSeries, sparseCum, sparseNew]
  rw [show axisDates events = List.range' (minDate events)
      (maxDate events + 1 - minDate events) from rfl]
  rw [h, List.getD_eq_getElem?_getD, List.getElem?_map,
    List.getElem?_eq_getElem hi']
  simp only [Option.map_some', Option.getD_some, List.getElem_range']
  rw [show minDate events + 1 * i + 1 - minDate events = i + 1 from by omega]
  omega

theorem sum_range'_countRepoDate (events : List Event) (repo : String) (i : Nat) :
    ((List.range' (minDate events) (i + 1)).map (countRepoDate events repo)).sum
      = countRepoLe events repo (minDate events + i) := by
  have h := sum_range'_filter_length (fun e => e.1 == repo) events (minDate events)
    (i + 1) (fun e he _ => minDate_le he)
  rw [show (countRepoDate events repo)
      = fun d => (events.filter (fun e => e.1 == repo && e.2 == d)).length from rfl]
  rw [h, countRepoLe]
  rw [List.filter_congr (fun e _ => by
    show ((e.1 == repo) && decide (e.2 < minDate events + (i + 1)))
      = ((e.1 == repo) && decide (e.2 ≤ minDate events + i))
    congr 1
    exact decide_eq_decide.mpr (by omega))]

theorem sum_range'_countDate (events : List Event) (i : Nat) :
    ((List.range' (minDate events) (i + 1)).map (countDate events)).sum
      = countLe events (minDate events + i) := by
  have h := sum_range'_filter_length (fun _ => true) events (minDate events)
    (i + 1) (fun e he _ => minDate_le he)
  simp only [Bool.true_and] at h
  rw [show (countDate events)
      = fun d => (events.filter (fun e => e.2 == d)).length from rfl]
  rw [h, countLe]
  rw [List.filter_congr (fun e _ => by
    show (decide (e.2 < minDate events + (i + 1)) : Bool)
      = decide (e.2 ≤ minDate events + i)
    exact decide_eq_decide.mpr (by omega))]

theorem axisDates_take (events : List Event) (i : Nat)
    (hi : i < (axisDates events).length) :
    (axisDates events).take (i + 1) = List.range' (minDate events) (i + 1) := by
  have hlen := hi
  simp only [axisDates, List.length_range'] at hlen
  rw [show axisDates events = List.range' (minDate events)
      (maxDate events + 1 - minDate events) from rfl]
  exact take_range' _ _ _ (by omega)

theorem sum_range'_map_mono (c : Nat → Nat) (a : Nat) {i j : Nat} (hij : i ≤ j) :
    ((List.range' a (i + 1)).map c).sum ≤ ((List.range' a (j + 1)).map c).sum := by
  have h1 : ((List.range' a (j + 1)).map c).take (i + 1)
      = (List.range' a (i + 1)).map c := by
    rw [← List.map_take, take_range' a (j + 1) (i + 1) (by omega)]
  have h2 : ((List.range' a (j + 1)).map c).take (j + 1)
      = (List.range' a (j + 1)).map c := by
    rw [← List.map_take, take_range' a (j + 1) (j + 1) (by omega)]
  rw [← h1]
  conv_rhs => rw [← h2]
  exact sum_take_mono _ (by omega)

theorem sum_map_filter_eq {α : Type} (L : List α) (q : α → Bool) (f : α → Nat)
    (h : ∀ x ∈ L, q x = false → f x = 0) :
    ((L.filter q).map f).sum = (L.map f).sum := by
  induction L with
  | nil => rfl
  | cons x L ih =>
    have htail := ih (fun y hy hq => h y (List.mem_cons_of_mem _ hy) hq)
    cases hq : q x with
    | true => simp [List.filter_cons, hq, htail]
    | false => simp [List.filter_cons, hq, htail, h x (List.mem_cons_self _ _) hq]

theorem sum_countRepoDate (repos : List String) (hnd : repos.Nodup) (d : Nat) :
    ∀ (events : List Event), (∀ e ∈ events, e.1 ∈ repos) →
      (repos.map (fun r => countRepoDate events r d)).sum = countDate events d := by
  intro events
  induction events with
  | nil =>
    intro _
    rw [show countDate [] d = 0 from rfl]
    exact sum_map_zero _ _ (fun r _ => rfl)
  | cons e evs ih =>
    intro hcov
    have hcov' : ∀ e' ∈ evs, e'.1 ∈ repos :=
      fun e' h' => hcov e' (List.mem_cons_of_mem _ h')
    have hsplit : ∀ r, countRepoDate (e :: evs) r d
        = countRepoDate evs r d + (if e.1 == r && e.2 == d then 1 else 0) := by
      intro r
      rw [countRepoDate, countRepoDate, ← List.countP_eq_length_filter,
        ← List.countP_eq_length_filter, List.countP_cons]
    rw [List.map_congr_left (fun r _ => hsplit r), List.sum_map_add, ih hcov']
    rw [show countDate (e :: evs) d
        = countDate evs d + (if e.2 == d then 1 else 0) from by
      rw [countDate, countDate, ← List.countP_eq_length_filter,
        ← List.countP_eq_length_filter, List.countP_cons]]
    congr 1
    by_cases hd : (e.2 == d) = true
    · simp only [hd, Bool.and_true]
      rw [if_pos trivial]
      exact sum_map_indicator repos e.1 1 hnd (hcov e (List.mem_cons_self _ _))
    · have hdf : (e.2 == d) = false := by simpa using hd
      simp only [hdf, Bool.and_false]
      exact sum_map_zero _ _ (fun r _ => rfl)

theorem countRepoLe_le_countLe (events : List Event) (repo : String) (d : Nat) :
    countRepoLe events repo d ≤ countLe events d := by
  have hsplit : events.filter (fun e => e.1 == repo && decide (e.2 ≤ d))
      = (events.filter (fun e => decide (e.2 ≤ d))).filter (fun e => e.1 == repo) := by
    rw [List.filter_filter]
  rw [countRepoLe, countLe, hsplit]
  exact List.length_filter_le _ _

/-! ## Claim theorems: cumulative-sum invariants and forward-fill -/

/-- **C2** In every series of the aggregated trend table — the global
new/cumulative columns and every per-repository new/cumulative column —
the cumulative value at axis position `i` is the sum of that series' new
counts over positions `≤ i`, and the cumulative column is monotonically
non-decreasing along the axis. -/
theorem trend_cumulative_invariant (events : List Event) (repo : String)
    (i j : Nat) (hij : i ≤ j) (hj : j < (axisDates events).length) :
    ((totalCumSeries events).getD i 0 = ((totalNewSeries events).take (i + 1)).sum
      ∧ (totalCumSeries events).getD i 0 ≤ (totalCumSeries events).getD j 0)
    ∧ ((repoCumSeries events repo).getD i 0
        = ((repoNewSeries events repo).take (i + 1)).sum
      ∧ (repoCumSeries events repo).getD i 0
        ≤ (repoCumSeries events repo).getD j 0) := by
  have hi : i < (axisDates events).length := Nat.lt_of_le_of_lt hij hj
  refine ⟨⟨totalCumSeries_getD events i hi, ?_⟩, ⟨?_, ?_⟩⟩
  · rw [totalCumSeries_getD events i hi, totalCumSeries_getD events j hj]
    exact sum_take_mono _ (by omega)
  · rw [repoCumSeries_getD events repo i hi, repoNewSeries_eq_map,
      ← List.map_take, axisDates_take events i hi]
  · rw [repoCumSeries_getD events repo i hi, repoCumSeries_getD events repo j hj]
    exact sum_range'_map_mono _ _ hij

/-- Witness for `trend_cumulative_invariant` at the two-repository
scenario, positions 0 ≤ 1. -/
theorem trend_cumulative_invariant_witness :
    (0 ≤ 1 ∧ 1 < (axisDates [("repoA", 0), ("repoA", 0), ("repoB", 1)]).length)
    ∧ ((totalCumSeries [("repoA", 0), ("repoA", 0), ("repoB", 1)]).getD 0 0
        = ((totalNewSeries [("repoA", 0), ("repoA", 0), ("repoB", 1)]).take 1).sum
      ∧ (repoCumSeries [("repoA", 0), ("repoA", 0), ("repoB", 1)] "repoB").getD 0 0
        ≤ (repoCumSeries [("repoA", 0), ("repoA", 0), ("repoB", 1)] "repoB").getD 1 0) :=
  ⟨⟨by decide, by decide⟩,
    ⟨(trend_cumulative_invariant _ "repoB" 0 1 (by decide) (by decide)).1.1,
     (trend_cumulative_invariant _ "repoB" 0 1 (by decide) (by decide)).2.2⟩⟩

/-- **C3** Every repository's cumulative column is its sparse cumulative
series reindexed onto the global axis with forward-fill: at every axis
date `d` the cumulative value equals the number of the repository's events
on dates `≤ d` (so gap dates carry the last known value and dates before
the repository's first event read `0`, not missing), and the new-count
value is the repository's event count on `d` (`0` where its sparse series
has no entry). -/
theorem repo_forward_fill (events : List Event) (repo : String) (i : Nat)
    (hi : i < (axisDates events).length) :
    (repoCumSeries events repo).getD i 0
      = countRepoLe events repo ((axisDates events).getD i 0)
    ∧ (repoNewSeries events repo).getD i 0
      = countRepoDate events repo ((axisDates events).getD i 0) := by
  rw [axisDates_getD events i hi]
  exact ⟨by
    rw [repoCumSeries_getD events repo i hi]
    exact sum_range'_countRepoDate events repo i,
    repoNewSeries_getD events repo i hi⟩

/-- Witness for `repo_forward_fill`: repository `o/r` has its only event on
day 1 while the axis (stretched by `o/s`) runs to day 5; at axis position
2 (day 3) its cumulative column reads the count of its events up to day 3,
i.e. the forward-filled 1. -/
theorem repo_forward_fill_witness :
    (2 < (axisDates [("o/r", 1), ("o/s", 5)]).length)
    ∧ (repoCumSeries [("o/r", 1), ("o/s", 5)] "o/r").getD 2 0
      = countRepoLe [("o/r", 1), ("o/s", 5)] "o/r"
          ((axisDates [("o/r", 1), ("o/s", 5)]).getD 2 0)
    ∧ (repoNewSeries [("o/r", 1), ("o/s", 5)] "o/r").getD 2 0
      = countRepoDate [("o/r", 1), ("o/s", 5)] "o/r"
          ((axisDates [("o/r", 1), ("o/s", 5)]).getD 2 0) :=
  ⟨by decide, (repo_forward_fill _ "o/r" 2 (by decide)).1,
    (repo_forward_fill _ "o/r" 2 (by decide)).2⟩

/-- **C5** When the processed repository list has no duplicates and covers
every event (each event belongs to exactly one processed repository), the
per-repository new-count columns of the table sum, at every axis position,
to the global new-count, and no per-repository cumulative value exceeds
the global cumulative value at the same position. -/
theorem per_repo_partition (events : List Event) (repos : List String) (i : Nat)
    (hnd : repos.Nodup) (hcov : ∀ e ∈ events, e.1 ∈ repos)
    (hi : i < (axisDates events).length) :
    (((trendTable events repos).repoCols.map (fun c => c.2.1.getD i 0)).sum
      = (trendTable events repos).totalNew.getD i 0)
    ∧ ∀ c ∈ (trendTable events repos).repoCols,
        c.2.2.getD i 0 ≤ (trendTable events repos).totalCum.getD i 0 := by
  constructor
  · show ((((repos.filter (hasEvents events)).map
        (fun r => (colPrefix r, repoNewSeries events r, repoCumSeries events r))).map
        (fun c => c.2.1.getD i 0)).sum) = (totalNewSeries events).getD i 0
    rw [List.map_map]
    have h1 : ∀ r ∈ repos.filter (hasEvents events),
        ((fun (c : String × List Nat × List Nat) => c.2.1.getD i 0) ∘
          (fun r => (colPrefix r, repoNewSeries events r, repoCumSeries events r))) r
          = countRepoDate events r (minDate events + i) :=
      fun r _ => repoNewSeries_getD events r i hi
    rw [List.map_congr_left h1]
    have h0 : ∀ r ∈ repos, hasEvents events r = false →
        countRepoDate events r (minDate events + i) = 0 := by
      intro r _ hr
      rw [countRepoDate, ← List.countP_eq_length_filter]
      rw [List.countP_eq_zero]
      intro e he
      have := (List.any_eq_false.mp hr) e he
      simp only [Bool.and_eq_true]
      rintro ⟨h1', _⟩
      exact this h1'
    rw [sum_map_filter_eq repos (hasEvents events) _ h0]
    rw [sum_countRepoDate repos hnd (minDate events + i) events hcov]
    exact (totalNewSeries_getD events i hi).symm
  · intro c hc
    rcases List.mem_map.mp hc with ⟨r, hr, rfl⟩
    show (repoCumSeries events r).getD i 0 ≤ (totalCumSeries events).getD i 0
    rw [repoCumSeries_getD events r i hi, totalCumSeries_getD events i hi,
      sum_range'_countRepoDate events r i, totalNewSeries, ← List.map_take,
      axisDates_take events i hi, sum_range'_countDate events i]
    exact countRepoLe_le_countLe events r (minDate events + i)

/-- Witness for `per_repo_partition` at the two-repository scenario,
axis position 0: the per-repository new counts on the first day sum to the
global new count. -/
theorem per_repo_partition_witness :
    (["repoA", "repoB"] : List String).Nodup
    ∧ (∀ e ∈ ([("repoA", 0), ("repoA", 0), ("repoB", 1)] : List Event),
        e.1 ∈ (["repoA", "repoB"] : List String))
    ∧ (((trendTable [("repoA", 0), ("repoA", 0), ("repoB", 1)]
          ["repoA", "repoB"]).repoCols.map (fun c => c.2.1.getD 0 0)).sum
        = (trendTable [("repoA", 0), ("repoA", 0), ("repoB", 1)]
            ["repoA", "repoB"]).totalNew.getD 0 0) :=
  ⟨by decide, by decide,
    (per_repo_partition [("repoA", 0), ("repoA", 0), ("repoB", 1)]
      ["repoA", "repoB"] 0 (by decide) (by decide) (by decide)).1⟩

end Stargazers
